import Mathlib

/-!
Verification of the Plazza pizza-fleet implementation (Reception /
KitchenManager / Kitchen over pipe IPC) against its natural-language
specification.  The C++ source is shallowly embedded: enumerations become
inductives carrying the exact bit-flag ordinals of `PizzaType.hpp`, wire
payloads become `List Char`, `std::stoi` / `ostringstream` decimal output
and the `Serializer::split` helper are modelled character by character,
and the stateful loops (`Kitchen::runAsChildProcess`, ingredient stock
updates, `KitchenManager::findBestKitchen`) become explicit state-passing
functions.  `double` arithmetic in cook-time computation is embedded as
exact rational arithmetic; every concrete input used below is a dyadic
rational of small magnitude, on which the C++ `double` computation is
exact, so the embedding decides those cases faithfully.
-/

namespace Plazza

/-- The nine ingredient kinds of `PizzaType.hpp` (bit-flag enum). -/
inductive Ingredient where
  | Dough | Tomato | Gruyere | Ham | Mushrooms
  | Steak | Eggplant | GoatCheese | ChiefLove
  deriving DecidableEq

/-- The enum ordinal of an ingredient, as declared in `PizzaType.hpp`. -/
def Ingredient.toInt : Ingredient → Int
  | .Dough => 1
  | .Tomato => 2
  | .Gruyere => 4
  | .Ham => 8
  | .Mushrooms => 16
  | .Steak => 32
  | .Eggplant => 64
  | .GoatCheese => 128
  | .ChiefLove => 256

/-- The four pizza types of `PizzaType.hpp` (bit-flag enum). -/
inductive PizzaType where
  | Regina | Margarita | Americana | Fantasia
  deriving DecidableEq

/-- The enum ordinal of a pizza type: Regina=1, Margarita=2, Americana=4,
Fantasia=8 (`PizzaType.hpp`). -/
def PizzaType.toInt : PizzaType → Int
  | .Regina => 1
  | .Margarita => 2
  | .Americana => 4
  | .Fantasia => 8

/-- `PizzaTypeHelper::getIngredientsForPizza` (Pizza.cpp:99-112), the
fixed ingredient table returned for each pizza type, in source order. -/
def getIngredientsForPizza : PizzaType → List Ingredient
  | .Margarita => [.Dough, .Tomato, .Gruyere]
  | .Regina => [.Dough, .Tomato, .Gruyere, .Ham, .Mushrooms]
  | .Americana => [.Dough, .Tomato, .Gruyere, .Steak]
  | .Fantasia => [.Dough, .Tomato, .Eggplant, .GoatCheese, .ChiefLove]

/-- `PizzaTypeHelper::getCookingTime` (Pizza.cpp:114-122): base cook time
in seconds per type. -/
def getCookingTime : PizzaType → Int
  | .Margarita => 1
  | .Regina => 2
  | .Americana => 2
  | .Fantasia => 4

/-- Modelled from the spec: the per-type ingredient table as the amended
claim states it (Americana keeps Gruyere and adds Steak; all other rows
as in the original claim). -/
def specIngredientTable : PizzaType → List Ingredient
  | .Margarita => [.Dough, .Tomato, .Gruyere]
  | .Regina => [.Dough, .Tomato, .Gruyere, .Ham, .Mushrooms]
  | .Americana => [.Dough, .Tomato, .Gruyere, .Steak]
  | .Fantasia => [.Dough, .Tomato, .Eggplant, .GoatCheese, .ChiefLove]

/-! ## Wire codec (Serialization.cpp / PipeIPC.cpp)

Payloads are flat text; we embed them as `List Char`.  Decimal printing
mirrors `ostringstream << int`, parsing mirrors `std::stoi`, and
`Serializer::split` (which drops empty tokens) is modelled exactly. -/

/-- Decimal digit character for a value below ten. -/
def digitChar (d : Nat) : Char := Char.ofNat (48 + d)

/-- Digit-extraction loop for decimal printing, structurally recursive
on a fuel that `natToChars` instantiates large enough (at least the
digit count) to never run out. -/
def natToCharsGo : Nat → Nat → List Char
  | 0, _ => []
  | fuel + 1, n =>
    if n < 10 then [digitChar n]
    else natToCharsGo fuel (n / 10) ++ [digitChar (n % 10)]

/-- Decimal representation of a natural number, most significant digit
first, as `ostringstream` prints it. -/
def natToChars (n : Nat) : List Char := natToCharsGo (n + 1) n

/-- `ostringstream << int`: optional minus sign then decimal digits. -/
def intToChars (i : Int) : List Char :=
  if i < 0 then '-' :: natToChars i.natAbs else natToChars i.toNat

/-- Numeric value of a decimal digit character, when it is one. -/
def charDigitVal (c : Char) : Option Nat :=
  if 48 ≤ c.toNat ∧ c.toNat ≤ 57 then some (c.toNat - 48) else none

/-- Fold the leading decimal-digit run of the list into a value starting
from `acc`, stopping at the first non-digit — `std::stoi` ignores
whatever follows the digits. -/
def digitsVal (acc : Nat) : List Char → Nat
  | [] => acc
  | c :: rest =>
    match charDigitVal c with
    | some d => digitsVal (acc * 10 + d) rest
    | none => acc

/-- Whether the list starts with a decimal digit. -/
def startsWithDigit : List Char → Bool
  | [] => false
  | c :: _ => (charDigitVal c).isSome

/-- The sign-and-digit part of `std::stoi`, applied after whitespace
skipping: an optional sign, then a non-empty digit run; trailing
characters are ignored. -/
def stoiCore : List Char → Option Int
  | [] => none
  | c :: rest =>
    if c = '-' then
      if startsWithDigit rest then some (-(digitsVal 0 rest : Int)) else none
    else if c = '+' then
      if startsWithDigit rest then some ((digitsVal 0 rest : Nat) : Int) else none
    else if (charDigitVal c).isSome then some ((digitsVal 0 (c :: rest) : Nat) : Int)
    else none

/-- `std::stoi` as the codec uses it: skip leading spaces, read an
optional sign and a non-empty digit run, ignore trailing characters;
`none` models the `std::invalid_argument` throw when no digit is
found. -/
def stoiChars (cs0 : List Char) : Option Int :=
  stoiCore (cs0.dropWhile (fun c => c = ' '))

/-- `Serializer::split` before its empty-token drop: cut the list at
every delimiter occurrence (a trailing delimiter yields a final empty
token, which the filter below removes — net effect identical to the
terminating `std::getline` loop of the source). -/
def splitAll (d : Char) : List Char → List (List Char)
  | [] => [[]]
  | c :: rest =>
    if c = d then [] :: splitAll d rest
    else
      match splitAll d rest with
      | [] => [[c]]
      | t :: ts => (c :: t) :: ts

/-- `Serializer::split` (Serialization.cpp:324-336): the non-empty
tokens between delimiters. -/
def cppSplit (d : Char) (cs : List Char) : List (List Char) :=
  (splitAll d cs).filter (fun t => ¬ t.isEmpty)

/-- `SerializedPizza` (Serialization.hpp).  The two enum fields are
embedded as their integer ordinals — exactly what `pack` writes
(`static_cast<int>`) and `unpack` stores back (`static_cast` of the
parsed int). -/
structure SerializedPizza where
  type : Int
  size : Int
  cookingTime : Int
  isCooked : Bool
  deriving DecidableEq

/-- `SerializedPizza::pack` (Serialization.cpp:216-223):
`<type>|<size>|<cook_time_ms>|<0 or 1>`. -/
def packPizza (p : SerializedPizza) : List Char :=
  intToChars p.type ++ '|' :: intToChars p.size ++ '|' ::
    intToChars p.cookingTime ++ '|' :: (if p.isCooked then intToChars 1 else intToChars 0)

/-- `SerializedPizza::unpack` (Serialization.cpp:225-235): split on
bars, require exactly four fields, `stoi` each; the cooked flag is the
test `stoi(parts[3]) == 1`.  `none` models the thrown exception. -/
def unpackPizza (cs : List Char) : Option SerializedPizza :=
  match cppSplit '|' cs with
  | [f0, f1, f2, f3] =>
    match stoiChars f0, stoiChars f1, stoiChars f2, stoiChars f3 with
    | some t, some s, some ct, some ck => some ⟨t, s, ct, ck == 1⟩
    | _, _, _, _ => none
  | _ => none

/-- `KitchenStatus` (Serialization.hpp). -/
structure KitchenStatusR where
  kitchenId : Int
  activeCooks : Int
  totalCooks : Int
  pizzasInQueue : Int
  maxCapacity : Int
  ingredients : List Int
  deriving DecidableEq

/-- The comma-joined ingredient counts of `KitchenStatus::pack`. -/
def packIngredientCounts : List Int → List Char
  | [] => []
  | [x] => intToChars x
  | x :: rest => intToChars x ++ ',' :: packIngredientCounts rest

/-- `KitchenStatus::pack` (Serialization.cpp:243-254):
`<id>|<active>|<total>|<queued>|<capacity>|<i0,...,in>`. -/
def packStatus (s : KitchenStatusR) : List Char :=
  intToChars s.kitchenId ++ '|' :: intToChars s.activeCooks ++ '|' ::
    intToChars s.totalCooks ++ '|' :: intToChars s.pizzasInQueue ++ '|' ::
    intToChars s.maxCapacity ++ '|' :: packIngredientCounts s.ingredients

/-- `stoi` applied to every token, failing on the first non-numeric one
— the behaviour of the ingredient-parsing loop in
`KitchenStatus::unpack`, whose first `std::stoi` throw aborts the whole
decode. -/
def stoiAll : List (List Char) → Option (List Int)
  | [] => some []
  | t :: ts =>
    match stoiChars t, stoiAll ts with
    | some v, some vs => some (v :: vs)
    | _, _ => none

/-- `KitchenStatus::unpack` (Serialization.cpp:256-273): split on bars,
require exactly six fields, `stoi` the first five, then split the sixth
on commas and `stoi` every entry.  The source never checks how many
ingredient entries there are. -/
def unpackStatus (cs : List Char) : Option KitchenStatusR :=
  match cppSplit '|' cs with
  | [f0, f1, f2, f3, f4, f5] =>
    match stoiChars f0, stoiChars f1, stoiChars f2, stoiChars f3, stoiChars f4 with
    | some k, some a, some t, some q, some c =>
      match stoiAll (cppSplit ',' f5) with
      | some ings => some ⟨k, a, t, q, c, ings⟩
      | none => none
    | _, _, _, _, _ => none
  | _ => none

/-! ## Ingredient stock (Kitchen.cpp) -/

/-- The worker's ingredient stock: the `std::map<Ingredient,int>` of
`Kitchen`, total because `initializeIngredients` fills all nine keys. -/
def Stock := Ingredient → Int

/-- `Kitchen::initializeIngredients` (Kitchen.cpp:402-414): five of
every ingredient. -/
def initialStock : Stock := fun _ => 5

/-- `Kitchen::restockIngredients` (Kitchen.cpp:348-356): every count
incremented by one, capped at 10 by `std::min`. -/
def restockIngredients (s : Stock) : Stock := fun i => min (s i + 1) 10

/-- One `it->second = std::max(0, it->second - 1)` update from
`Kitchen::consumeIngredients`. -/
def consumeOne (s : Stock) (i : Ingredient) : Stock :=
  fun j => if j = i then max 0 (s i - 1) else s j

/-- `Kitchen::hasIngredients` (Kitchen.cpp:374-387) on a required
list: every required ingredient has a strictly positive count. -/
def hasIngredientsList (req : List Ingredient) (s : Stock) : Bool :=
  req.all (fun i => 0 < s i)

/-- `Kitchen::consumeIngredients` (Kitchen.cpp:389-400) on a required
list: decrement each required ingredient once, clamped at zero. -/
def consumeList (req : List Ingredient) (s : Stock) : Stock :=
  req.foldl consumeOne s

/-- The `switch` of `getIngredientsForPizza` really runs on an enum
value cast from the wire integer; the four enumerator ordinals map to
their type, anything else falls through. -/
def pizzaTypeOfInt (z : Int) : Option PizzaType :=
  if z = 1 then some .Regina
  else if z = 2 then some .Margarita
  else if z = 4 then some .Americana
  else if z = 8 then some .Fantasia
  else none

/-- Required ingredients for a wire type ordinal; the `default` branch
of the switch returns the empty list. -/
def ingredientsOfOrdinal (z : Int) : List Ingredient :=
  match pizzaTypeOfInt z with
  | some t => getIngredientsForPizza t
  | none => []

/-- The stock-mutating operations a worker performs after
initialization: a restock tick, or the consumption done for one cooked
pizza of the given type. -/
inductive StockOp where
  | restock
  | consume (t : PizzaType)

/-- Apply a sequence of stock operations, oldest first. -/
def applyStockOps : List StockOp → Stock → Stock
  | [], s => s
  | .restock :: rest, s => applyStockOps rest (restockIngredients s)
  | .consume t :: rest, s =>
      applyStockOps rest (consumeList (getIngredientsForPizza t) s)

/-! ## Worker event loop (Kitchen::runAsChildProcess, Kitchen::cookPizza) -/

/-- The completion notification `Kitchen::cookPizza` sends when a pizza
is done (Kitchen.cpp:330-339): the cooked copy of the job goes through
`PipeIPC::operator<<(const SerializedPizza&)` (PipeIPC.cpp:144-148),
which frames the payload under the tag string `PIZZA:` — not
`COMPLETED:`. -/
def completionFrame (p : SerializedPizza) : List Char :=
  "PIZZA:".toList ++ packPizza { p with isCooked := true }

/-- `KitchenManager::handleKitchenMessage` (KitchenManager.cpp:212-216):
only a message whose first ten characters are `COMPLETED:` is treated
as a completion (its payload is returned); every other message is
dropped. -/
def handleKitchenMessage (msg : List Char) : Option (List Char) :=
  if msg.take 10 = "COMPLETED:".toList then some (msg.drop 10) else none

/-- Worker-side state touched by the receive loop and the cook threads:
the job FIFO (`_pizzaQueue`), `_activeCooks`, the queue of cook threads
sleeping their cook time (oldest first), the ingredient stock, and the
frames written back to the parent, oldest first. -/
structure WorkerState where
  numCooks : Nat
  queue : List SerializedPizza
  activeCooks : Nat
  cooking : List SerializedPizza
  stock : Stock
  sent : List (List Char)

/-- Receipt of one `PIZZA:` message in `Kitchen::runAsChildProcess`
(Kitchen.cpp:184-212): push the job onto the FIFO, and iff
`_activeCooks < _numCooks` start a cook thread on it.  The new thread
(Kitchen.cpp:293-316) immediately increments `_activeCooks`, checks the
stock, and either aborts on missing ingredients (decrementing the
counter again, net no change) or consumes the ingredients and starts
its cook-time sleep. -/
def recvPizza (s : WorkerState) (p : SerializedPizza) : WorkerState :=
  let s1 := { s with queue := s.queue ++ [p] }
  if s1.activeCooks < s1.numCooks then
    if hasIngredientsList (ingredientsOfOrdinal p.type) s1.stock then
      { s1 with
          activeCooks := s1.activeCooks + 1,
          stock := consumeList (ingredientsOfOrdinal p.type) s1.stock,
          cooking := s1.cooking ++ [p] }
    else s1
  else s1

/-- Completion of the oldest sleeping cook thread (Kitchen.cpp:316-345):
pop the FIFO front when non-empty, emit the completion frame through
the stream operator, decrement `_activeCooks`. -/
def cookFinish (s : WorkerState) : WorkerState :=
  match s.cooking with
  | [] => s
  | p :: rest =>
    { s with
        cooking := rest,
        queue := s.queue.tail,
        sent := s.sent ++ [completionFrame p],
        activeCooks := s.activeCooks - 1 }

/-- The observable worker events: one `PIZZA:` receipt, or one cook
thread finishing its sleep. -/
inductive WorkerEv where
  | recv (p : SerializedPizza)
  | finish

/-- Run the worker over a sequence of events, oldest first. -/
def runWorker (s : WorkerState) : List WorkerEv → WorkerState
  | [] => s
  | .recv p :: evs => runWorker (recvPizza s p) evs
  | .finish :: evs => runWorker (cookFinish s) evs

/-- Worker state right after `runAsChildProcess` initialization. -/
def initWorkerState (numCooks : Nat) : WorkerState :=
  ⟨numCooks, [], 0, [], initialStock, []⟩

/-- The `fantasia L` unit job as Reception dispatches it with
multiplier 1: type ordinal 8, size ordinal 4, 4000 ms, not cooked. -/
def fantasiaL : SerializedPizza := ⟨8, 4, 4000, false⟩

/-- The C2 scenario interleaving: the three `PIZZA:` frames arrive on
successive loop ticks (10 ms apart) while the single cook thread sleeps
its 4000 ms cook time, so all three receipts precede the only cook
completion. -/
def c2Trace : List WorkerEv :=
  [.recv fantasiaL, .recv fantasiaL, .recv fantasiaL, .finish]

/-- The control skeleton of the receive loop of
`Kitchen::runAsChildProcess` (Kitchen.cpp:160-268): `loopCount` starts
at 0, the guard is `loopCount < 10000`, the body increments the counter
first; `recvd c` says whether iteration `c` handled a message and
`shouldCl c` is `shouldClose()` at that iteration, the loop breaking
when nothing was received and the predicate holds.  `_active` stays
true for the whole loop (the child clears it only during cleanup), so
that conjunct of the guard is constant.  The returned final `loopCount`
equals the number of iterations executed. -/
def workerLoopCount (recvd shouldCl : Nat → Bool) (count : Nat) : Nat :=
  if count < 10000 then
    if ¬ recvd (count + 1) ∧ shouldCl (count + 1) then count + 1
    else workerLoopCount recvd shouldCl (count + 1)
  else count
termination_by 10000 - count

/-! ## Dispatcher (KitchenManager.cpp) -/

/-- The parent-side record the dispatcher keeps per worker
(`KitchenProcess` together with the parent's `Kitchen` object): the
`active` flag, the length of the parent-side simulated `_pizzaQueue`,
the cook count, and the `_pendingPizzas` in-flight counter. -/
structure KitchenRec where
  active : Bool
  queueLen : Nat
  numCooks : Nat
  pending : Nat
  deriving DecidableEq

/-- `Kitchen::canAcceptPizza` (Kitchen.cpp:21-24):
`_pizzaQueue.size() < 2 * _numCooks`, evaluated by the dispatcher on
the parent's copy of the queue. -/
def canAcceptPizza (k : KitchenRec) : Bool := k.queueLen < 2 * k.numCooks

/-- Modelled from the spec: `Kitchen::getPendingPizzaCount` is declared
in Kitchen.hpp but its body is not among the sources; per the spec's
`in_flight_count` it reads the atomic `_pendingPizzas` counter. -/
def getPendingPizzaCount (k : KitchenRec) : Nat := k.pending

/-- `INT_MAX`, the initial `minLoad` of `findBestKitchen`. -/
def intMax : Nat := 2147483647

/-- The scanning loop of `KitchenManager::findBestKitchen`
(KitchenManager.cpp:390-418): `i` is the registry index of the head of
`ks`, `best` and `minLoad` the accumulators.  A worker that is inactive
or fails `canAcceptPizza` is skipped; otherwise its load is compared
strictly against `minLoad`, and a zero load ends the scan. -/
def findBestKitchenAux : List KitchenRec → Nat → Int → Nat → Int
  | [], _, best, _ => best
  | k :: rest, i, best, minLoad =>
    if k.active ∧ canAcceptPizza k then
      if getPendingPizzaCount k = 0 then
        if getPendingPizzaCount k < minLoad then (i : Int) else best
      else if getPendingPizzaCount k < minLoad then
        findBestKitchenAux rest (i + 1) (i : Int) (getPendingPizzaCount k)
      else findBestKitchenAux rest (i + 1) best minLoad
    else findBestKitchenAux rest (i + 1) best minLoad

/-- `KitchenManager::findBestKitchen`: −1 for an empty registry and
when no worker qualifies, else the selected registry index. -/
def findBestKitchen (ks : List KitchenRec) : Int :=
  if ks.isEmpty then -1 else findBestKitchenAux ks 0 (-1) intMax

/-- Combine an admitted head worker with the best (index, load) choice
of the tail: the head wins on a tie, implementing the earliest-minimum
tie-break. -/
def consSelect (k : KitchenRec) : Option (Nat × Nat) → Option (Nat × Nat)
  | none => some (0, getPendingPizzaCount k)
  | some (j, l) =>
    if getPendingPizzaCount k ≤ l then some (0, getPendingPizzaCount k)
    else some (j + 1, l)

/-- Shift the tail's best choice past a skipped head worker. -/
def skipSelect : Option (Nat × Nat) → Option (Nat × Nat)
  | none => none
  | some (j, l) => some (j + 1, l)

/-- The selection rule as the spec words it, parametrized by the
admission predicate: the earliest admitted worker with minimal
in-flight load, as an (index, load) pair — the rule's immediate return
at load 0 selects exactly the earliest minimum when the minimum is 0 —
and `none` when no worker is admitted. -/
def selectMinLoad (qual : KitchenRec → Bool) : List KitchenRec → Option (Nat × Nat)
  | [] => none
  | k :: rest =>
    if qual k then consSelect k (selectMinLoad qual rest)
    else skipSelect (selectMinLoad qual rest)

/-- What the scanning loop returns given the best choice over the
remaining workers, the running accumulators and the index offset. -/
def bestOfChoice (best : Int) (i minLoad : Nat) : Option (Nat × Nat) → Int
  | none => best
  | some (j, l) => if l < minLoad then ((i + j : Nat) : Int) else best

/-- The claim's admission test: active, and in-flight count strictly
below `max_capacity = 2 × total_cooks`. -/
def inflightQual (k : KitchenRec) : Bool :=
  k.active && decide (getPendingPizzaCount k < 2 * k.numCooks)

/-- The code's admission test: active and `canAcceptPizza`. -/
def queueCapQual (k : KitchenRec) : Bool := k.active && canAcceptPizza k

/-- The claim's selection rule verbatim: admission by in-flight count
against `max_capacity`. -/
def specSelectInflight (ks : List KitchenRec) : Option Nat :=
  (selectMinLoad inflightQual ks).map Prod.fst

/-- The amended selection rule: admission by the parent-side simulated
queue length (`canAcceptPizza`), which is what the code tests. -/
def specSelectQueueCap (ks : List KitchenRec) : Option Nat :=
  (selectMinLoad queueCapQual ks).map Prod.fst

/-- Parent-side per-worker view mutated by one dispatch: the
`_pendingPizzas` counter and the last-activity instant. -/
structure DispatchView where
  pending : Nat
  lastActivity : Nat
  deriving DecidableEq

/-- The frame `KitchenManager::sendPizzaViaIPC` writes
(KitchenManager.cpp:62). -/
def pizzaDispatchFrame (p : SerializedPizza) : List Char :=
  "PIZZA:".toList ++ packPizza p

/-- `KitchenManager::sendPizzaViaIPC` (KitchenManager.cpp:56-75):
`ready` is `ipc && ipc->isReady()`, `sendOk` the outcome of the framed
pipe send, `now` the instant `updateLastActivity` records.  On a
successful send the pending counter is incremented
(`incrementPendingPizzas`, modelled from the spec: its body is not
among the sources; per the spec it is the atomic increment of
`_pendingPizzas`) and the last-activity timer reset; otherwise the view
is unchanged and the call reports failure. -/
def sendPizzaViaIPC (ready sendOk : Bool) (now : Nat) (v : DispatchView) :
    Bool × DispatchView :=
  if ¬ ready then (false, v)
  else if sendOk then (true, ⟨v.pending + 1, now⟩)
  else (false, v)

/-! ## Cook time at dispatch (Reception.cpp, Pizza.cpp) -/

/-- Truncation toward zero: the semantics of `static_cast<int>` on a
finite `double` value. -/
def cppTrunc (q : ℚ) : Int := if 0 ≤ q then ⌊q⌋ else -⌊-q⌋

/-- The cook time Reception computes at dispatch (Reception.cpp,
`handleOrderCommand`):
`PizzaTypeHelper::getCookingTime(order.type) * _multiplier * 1000`,
converted to `int` by the `SerializedPizza` constructor.  The `double`
product is embedded as an exact rational; on dyadic multipliers of
modest size (all multipliers used in theorems below) the C++ `double`
computation is exact, so the embedding agrees with the source. -/
def dispatchCookTimeMs (t : PizzaType) (m : ℚ) : Int :=
  cppTrunc ((getCookingTime t : ℚ) * m * 1000)

/-- Modelled from the spec: the base cook-time table in seconds
(Margarita 1, Regina 2, Americana 2, Fantasia 4). -/
def specBaseSeconds : PizzaType → ℚ
  | .Margarita => 1
  | .Regina => 2
  | .Americana => 2
  | .Fantasia => 4

/-- Modelled from the spec: the claimed dispatch formula
`round(base_seconds(type) * multiplier * 1000)`. -/
def specCookTimeRound (t : PizzaType) (m : ℚ) : Int :=
  round (specBaseSeconds t * m * 1000)

end Plazza

namespace Plazza

/-- Claim C3 (counterexample): the claim's Americana row
{Dough, Tomato, Steak} is wrong — the code's Americana ingredient list
contains Gruyere (Pizza.cpp:106 returns {Dough, Tomato, Gruyere, Steak}). -/
theorem C3_americana_counterexample :
    getIngredientsForPizza PizzaType.Americana ≠
      [Ingredient.Dough, Ingredient.Tomato, Ingredient.Steak] ∧
    Ingredient.Gruyere ∈ getIngredientsForPizza PizzaType.Americana := by
  decide

/-- Claim C3 (amended): the ingredient list returned for each pizza type
equals the fixed table with Margarita = {Dough, Tomato, Gruyere};
Regina = {Dough, Tomato, Gruyere, Ham, Mushrooms};
Americana = {Dough, Tomato, Gruyere, Steak} (Margarita plus Steak, the
Gruyere retained); Fantasia = {Dough, Tomato, Eggplant, GoatCheese,
ChiefLove}. -/
theorem C3_ingredient_table (t : PizzaType) :
    getIngredientsForPizza t = specIngredientTable t := by
  cases t <;> rfl

/-! ## Decimal printing / parsing lemmas -/

theorem charDigitVal_digitChar (d : Nat) (hd : d < 10) :
    charDigitVal (digitChar d) = some d := by
  interval_cases d <;> decide

theorem digitChar_bounds (d : Nat) (hd : d < 10) :
    48 ≤ (digitChar d).toNat ∧ (digitChar d).toNat ≤ 57 := by
  interval_cases d <;> decide

theorem natToCharsGo_congr :
    ∀ (n f1 f2 : Nat), n < f1 → n < f2 → natToCharsGo f1 n = natToCharsGo f2 n := by
  intro n
  induction n using Nat.strong_induction_on with
  | _ n ih =>
    intro f1 f2 h1 h2
    cases f1 with
    | zero => omega
    | succ g1 =>
      cases f2 with
      | zero => omega
      | succ g2 =>
        simp only [natToCharsGo]
        split_ifs with h
        · rfl
        · rw [ih (n / 10) (Nat.div_lt_self (by omega) (by omega)) g1 g2
            (by omega) (by omega)]

theorem natToChars_eq (n : Nat) :
    natToChars n =
      if n < 10 then [digitChar n]
      else natToChars (n / 10) ++ [digitChar (n % 10)] := by
  show natToCharsGo (n + 1) n = _
  rw [natToCharsGo]
  split_ifs with h
  · rfl
  · rw [natToCharsGo_congr (n / 10) n (n / 10 + 1)
      (by omega) (by omega)]
    rfl

theorem natToChars_digits (n : Nat) :
    ∀ c ∈ natToChars n, 48 ≤ c.toNat ∧ c.toNat ≤ 57 := by
  induction n using Nat.strong_induction_on with
  | _ n ih =>
    rw [natToChars_eq]
    split_ifs with h
    · intro c hc
      rw [List.mem_singleton] at hc
      subst hc
      exact digitChar_bounds n h
    · intro c hc
      rcases List.mem_append.1 hc with h1 | h1
      · exact ih (n / 10) (Nat.div_lt_self (by omega) (by omega)) c h1
      · rw [List.mem_singleton] at h1
        subst h1
        exact digitChar_bounds (n % 10) (Nat.mod_lt _ (by omega))

theorem natToChars_ne_nil (n : Nat) : natToChars n ≠ [] := by
  rw [natToChars_eq]
  split_ifs with h <;> simp

theorem digit_ne_special {c : Char} (h : 48 ≤ c.toNat ∧ c.toNat ≤ 57) :
    c ≠ '|' ∧ c ≠ ',' ∧ c ≠ ' ' ∧ c ≠ '-' ∧ c ≠ '+' := by
  refine ⟨?_, ?_, ?_, ?_, ?_⟩ <;> intro he <;> subst he <;> revert h <;> decide

theorem charDigitVal_isSome {c : Char} (h : 48 ≤ c.toNat ∧ c.toNat ≤ 57) :
    (charDigitVal c).isSome = true := by
  simp [charDigitVal, h.1, h.2]

theorem digitsVal_append (xs ys : List Char)
    (hxs : ∀ c ∈ xs, (charDigitVal c).isSome = true) (acc : Nat) :
    digitsVal acc (xs ++ ys) = digitsVal (digitsVal acc xs) ys := by
  induction xs generalizing acc with
  | nil => rfl
  | cons c rest ih =>
    rcases Option.isSome_iff_exists.1 (hxs c (List.mem_cons_self c rest)) with ⟨d, hd⟩
    simp only [List.cons_append, digitsVal, hd]
    exact ih (fun x hx => hxs x (List.mem_cons_of_mem c hx)) (acc * 10 + d)

theorem digitsVal_natToChars (n : Nat) :
    ∀ acc, digitsVal acc (natToChars n) = acc * 10 ^ (natToChars n).length + n := by
  induction n using Nat.strong_induction_on with
  | _ n ih =>
    intro acc
    rw [natToChars_eq]
    split_ifs with h
    · simp only [digitsVal, charDigitVal_digitChar n h, List.length_cons,
        List.length_nil, pow_one, zero_add]
    · have hall : ∀ c ∈ natToChars (n / 10), (charDigitVal c).isSome = true :=
        fun c hc => charDigitVal_isSome (natToChars_digits _ c hc)
      rw [digitsVal_append _ _ hall]
      rw [ih (n / 10) (Nat.div_lt_self (by omega) (by omega))]
      simp only [digitsVal, charDigitVal_digitChar (n % 10) (Nat.mod_lt _ (by omega))]
      rw [List.length_append, List.length_cons, List.length_nil, pow_succ, ← mul_assoc]
      generalize acc * 10 ^ (natToChars (n / 10)).length = k
      omega

theorem stoiCore_digits (xs : List Char) (hne : xs ≠ [])
    (hd : ∀ c ∈ xs, 48 ≤ c.toNat ∧ c.toNat ≤ 57) :
    stoiCore xs = some ((digitsVal 0 xs : Nat) : Int) := by
  cases xs with
  | nil => exact absurd rfl hne
  | cons c rest =>
    have hb := hd c (List.mem_cons_self c rest)
    have hsp := digit_ne_special hb
    rw [stoiCore, if_neg hsp.2.2.2.1, if_neg hsp.2.2.2.2, if_pos (charDigitVal_isSome hb)]

theorem stoiChars_of_digits (xs : List Char) (hne : xs ≠ [])
    (hd : ∀ c ∈ xs, 48 ≤ c.toNat ∧ c.toNat ≤ 57) :
    stoiChars xs = some ((digitsVal 0 xs : Nat) : Int) := by
  cases xs with
  | nil => exact absurd rfl hne
  | cons c rest =>
    have hsp := digit_ne_special (hd c (List.mem_cons_self c rest))
    rw [stoiChars, List.dropWhile_cons]
    rw [if_neg (by simpa using hsp.2.2.1)]
    exact stoiCore_digits _ (by simp) hd

theorem stoiChars_natToChars (n : Nat) :
    stoiChars (natToChars n) = some ((n : Nat) : Int) := by
  rw [stoiChars_of_digits _ (natToChars_ne_nil n) (natToChars_digits n)]
  rw [digitsVal_natToChars]
  simp

theorem intToChars_nonneg {z : Int} (hz : 0 ≤ z) :
    intToChars z = natToChars z.toNat := by
  rw [intToChars, if_neg (not_lt.2 hz)]

theorem intToChars_ne_nil (z : Int) : intToChars z ≠ [] := by
  rw [intToChars]
  split_ifs
  · simp
  · exact natToChars_ne_nil _

theorem stoiChars_intToChars {z : Int} (hz : 0 ≤ z) :
    stoiChars (intToChars z) = some z := by
  rw [intToChars_nonneg hz, stoiChars_natToChars, Int.toNat_of_nonneg hz]

/-! ## Split lemmas -/

theorem splitAll_no_delim (d : Char) (xs : List Char) (h : ∀ c ∈ xs, c ≠ d) :
    splitAll d xs = [xs] := by
  induction xs with
  | nil => rfl
  | cons c rest ih =>
    simp only [splitAll, if_neg (h c (List.mem_cons_self c rest)),
      ih (fun x hx => h x (List.mem_cons_of_mem c hx))]

theorem splitAll_append (d : Char) (xs ys : List Char) (h : ∀ c ∈ xs, c ≠ d) :
    splitAll d (xs ++ d :: ys) = xs :: splitAll d ys := by
  induction xs with
  | nil => simp [splitAll]
  | cons c rest ih =>
    simp only [List.cons_append, splitAll, List.append_eq,
      if_neg (h c (List.mem_cons_self c rest)),
      ih (fun x hx => h x (List.mem_cons_of_mem c hx))]

theorem cppSplit_append (d : Char) (xs ys : List Char) (hne : xs ≠ [])
    (h : ∀ c ∈ xs, c ≠ d) :
    cppSplit d (xs ++ d :: ys) = xs :: cppSplit d ys := by
  rw [cppSplit, cppSplit, splitAll_append d xs ys h, List.filter_cons]
  simp [hne]

theorem cppSplit_no_delim (d : Char) (xs : List Char) (hne : xs ≠ [])
    (h : ∀ c ∈ xs, c ≠ d) :
    cppSplit d xs = [xs] := by
  rw [cppSplit, splitAll_no_delim d xs h, List.filter_cons]
  simp [hne]

theorem intToChars_no_bar {z : Int} (hz : 0 ≤ z) :
    ∀ c ∈ intToChars z, c ≠ '|' := by
  intro c hcm
  rw [intToChars_nonneg hz] at hcm
  exact (digit_ne_special (natToChars_digits _ c hcm)).1

theorem intToChars_no_comma {z : Int} (hz : 0 ≤ z) :
    ∀ c ∈ intToChars z, c ≠ ',' := by
  intro c hcm
  rw [intToChars_nonneg hz] at hcm
  exact (digit_ne_special (natToChars_digits _ c hcm)).2.1

/-! ## Codec round trips -/

theorem unpackPizza_packPizza (p : SerializedPizza)
    (ht : 0 ≤ p.type) (hs : 0 ≤ p.size) (hc : 0 ≤ p.cookingTime) :
    unpackPizza (packPizza p) = some p := by
  obtain ⟨t, s, ct, ck⟩ := p
  replace ht : (0:Int) ≤ t := ht
  replace hs : (0:Int) ≤ s := hs
  replace hc : (0:Int) ≤ ct := hc
  have hck : (if ck then intToChars 1 else intToChars 0)
      = intToChars (if ck then 1 else 0) := by
    cases ck <;> rfl
  have hck0 : (0:Int) ≤ if ck then 1 else 0 := by cases ck <;> norm_num
  have hsplit : cppSplit '|' (packPizza ⟨t, s, ct, ck⟩) =
      [intToChars t, intToChars s, intToChars ct,
        intToChars (if ck then 1 else 0)] := by
    simp only [packPizza, List.cons_append, List.append_assoc]
    rw [hck,
        cppSplit_append _ _ _ (intToChars_ne_nil t) (intToChars_no_bar ht),
        cppSplit_append _ _ _ (intToChars_ne_nil s) (intToChars_no_bar hs),
        cppSplit_append _ _ _ (intToChars_ne_nil ct) (intToChars_no_bar hc),
        cppSplit_no_delim _ _ (intToChars_ne_nil _) (intToChars_no_bar hck0)]
  unfold unpackPizza
  rw [hsplit]
  simp only [stoiChars_intToChars ht, stoiChars_intToChars hs,
    stoiChars_intToChars hc, stoiChars_intToChars hck0]
  cases ck <;> rfl

theorem packIngredientCounts_mem (l : List Int) (h : ∀ x ∈ l, 0 ≤ x) :
    ∀ c ∈ packIngredientCounts l, (48 ≤ c.toNat ∧ c.toNat ≤ 57) ∨ c = ',' := by
  induction l with
  | nil => intro c hc; simp [packIngredientCounts] at hc
  | cons x rest ih =>
    cases rest with
    | nil =>
      intro c hc
      simp only [packIngredientCounts] at hc
      rw [intToChars_nonneg (h x (List.mem_cons_self x []))] at hc
      exact Or.inl (natToChars_digits _ c hc)
    | cons y tl =>
      intro c hc
      simp only [packIngredientCounts] at hc
      rcases List.mem_append.1 hc with h1 | h1
      · rw [intToChars_nonneg (h x (List.mem_cons_self x _))] at h1
        exact Or.inl (natToChars_digits _ c h1)
      · rcases List.mem_cons.1 h1 with h2 | h2
        · exact Or.inr h2
        · exact ih (fun z hz => h z (List.mem_cons_of_mem x hz)) c h2

theorem packIngredientCounts_ne_nil (l : List Int) (hne : l ≠ []) :
    packIngredientCounts l ≠ [] := by
  cases l with
  | nil => exact absurd rfl hne
  | cons x rest =>
    cases rest with
    | nil =>
      simp only [packIngredientCounts]
      exact intToChars_ne_nil x
    | cons y tl => simp [packIngredientCounts]

theorem cppSplit_packIngredients (l : List Int) (hne : l ≠ [])
    (h : ∀ x ∈ l, 0 ≤ x) :
    cppSplit ',' (packIngredientCounts l) = l.map (fun x => intToChars x) := by
  induction l with
  | nil => exact absurd rfl hne
  | cons x rest ih =>
    have hx0 := h x (List.mem_cons_self x rest)
    cases rest with
    | nil =>
      simp only [packIngredientCounts, List.map_cons, List.map_nil]
      exact cppSplit_no_delim _ _ (intToChars_ne_nil x) (intToChars_no_comma hx0)
    | cons y tl =>
      simp only [packIngredientCounts, List.map_cons]
      rw [cppSplit_append _ _ _ (intToChars_ne_nil x) (intToChars_no_comma hx0)]
      rw [ih (by simp) (fun z hz => h z (List.mem_cons_of_mem x hz))]
      simp

theorem stoiAll_map_intToChars (l : List Int) (h : ∀ x ∈ l, 0 ≤ x) :
    stoiAll (l.map (fun x => intToChars x)) = some l := by
  induction l with
  | nil => rfl
  | cons x rest ih =>
    simp only [List.map_cons, stoiAll,
      stoiChars_intToChars (h x (List.mem_cons_self x rest)),
      ih (fun z hz => h z (List.mem_cons_of_mem x hz))]

theorem unpackStatus_packStatus (s : KitchenStatusR)
    (h0 : 0 ≤ s.kitchenId) (h1 : 0 ≤ s.activeCooks) (h2 : 0 ≤ s.totalCooks)
    (h3 : 0 ≤ s.pizzasInQueue) (h4 : 0 ≤ s.maxCapacity)
    (hing : ∀ x ∈ s.ingredients, 0 ≤ x) (hne : s.ingredients ≠ []) :
    unpackStatus (packStatus s) = some s := by
  obtain ⟨k, a, t, q, c, ings⟩ := s
  replace h0 : (0:Int) ≤ k := h0
  replace h1 : (0:Int) ≤ a := h1
  replace h2 : (0:Int) ≤ t := h2
  replace h3 : (0:Int) ≤ q := h3
  replace h4 : (0:Int) ≤ c := h4
  replace hing : ∀ x ∈ ings, (0:Int) ≤ x := hing
  replace hne : ings ≠ [] := hne
  have hlastd : ∀ ch ∈ packIngredientCounts ings, ch ≠ '|' := by
    intro ch hcm
    rcases packIngredientCounts_mem ings hing ch hcm with hd | hcomma
    · exact (digit_ne_special hd).1
    · subst hcomma; decide
  have hsplit : cppSplit '|' (packStatus ⟨k, a, t, q, c, ings⟩) =
      [intToChars k, intToChars a, intToChars t, intToChars q, intToChars c,
        packIngredientCounts ings] := by
    simp only [packStatus, List.cons_append, List.append_assoc]
    rw [cppSplit_append _ _ _ (intToChars_ne_nil k) (intToChars_no_bar h0),
        cppSplit_append _ _ _ (intToChars_ne_nil a) (intToChars_no_bar h1),
        cppSplit_append _ _ _ (intToChars_ne_nil t) (intToChars_no_bar h2),
        cppSplit_append _ _ _ (intToChars_ne_nil q) (intToChars_no_bar h3),
        cppSplit_append _ _ _ (intToChars_ne_nil c) (intToChars_no_bar h4),
        cppSplit_no_delim _ _ (packIngredientCounts_ne_nil ings hne) hlastd]
  unfold unpackStatus
  rw [hsplit]
  simp only [stoiChars_intToChars h0, stoiChars_intToChars h1,
    stoiChars_intToChars h2, stoiChars_intToChars h3, stoiChars_intToChars h4,
    cppSplit_packIngredients ings hne hing, stoiAll_map_intToChars ings hing]

/-! ## Claim C6 and C7 -/

/-- Claim C6: codec round-trip — decoding an encoded PizzaJob with
in-range fields (bit-flag type and size ordinals, non-negative cook
time) returns it unchanged, and likewise for a WorkerStatus with
non-negative fields and exactly nine ingredient counts. -/
theorem C6_codec_round_trip :
    (∀ p : SerializedPizza,
        p.type ∈ ([1, 2, 4, 8] : List Int) →
        p.size ∈ ([1, 2, 4, 8, 16] : List Int) →
        0 ≤ p.cookingTime →
        unpackPizza (packPizza p) = some p) ∧
    (∀ s : KitchenStatusR,
        0 ≤ s.kitchenId → 0 ≤ s.activeCooks → 0 ≤ s.totalCooks →
        0 ≤ s.pizzasInQueue → 0 ≤ s.maxCapacity →
        (∀ x ∈ s.ingredients, 0 ≤ x) → s.ingredients.length = 9 →
        unpackStatus (packStatus s) = some s) := by
  constructor
  · intro p hpt hps hct
    have hpt2 : p.type = 1 ∨ p.type = 2 ∨ p.type = 4 ∨ p.type = 8 := by
      simpa using hpt
    have hps2 : p.size = 1 ∨ p.size = 2 ∨ p.size = 4 ∨ p.size = 8 ∨ p.size = 16 := by
      simpa using hps
    have ht : 0 ≤ p.type := by rcases hpt2 with h | h | h | h <;> omega
    have hs : 0 ≤ p.size := by rcases hps2 with h | h | h | h | h <;> omega
    exact unpackPizza_packPizza p ht hs hct
  · intro s h0 h1 h2 h3 h4 hing hlen
    have hne : s.ingredients ≠ [] := by
      intro h
      rw [h] at hlen
      simp at hlen
    exact unpackStatus_packStatus s h0 h1 h2 h3 h4 hing hne

/-- Claim C6 witness: the round trip evaluated at a concrete job and a
concrete nine-ingredient status. -/
theorem C6_codec_round_trip_witness :
    unpackPizza (packPizza ⟨2, 1, 300, true⟩) = some ⟨2, 1, 300, true⟩ ∧
    unpackStatus (packStatus ⟨1, 0, 1, 0, 2, [5, 5, 5, 5, 5, 5, 5, 5, 5]⟩) =
      some ⟨1, 0, 1, 0, 2, [5, 5, 5, 5, 5, 5, 5, 5, 5]⟩ :=
  ⟨C6_codec_round_trip.1 ⟨2, 1, 300, true⟩ (by decide) (by decide) (by decide),
   C6_codec_round_trip.2 ⟨1, 0, 1, 0, 2, [5, 5, 5, 5, 5, 5, 5, 5, 5]⟩ (by decide)
     (by decide) (by decide) (by decide) (by decide) (by decide) (by decide)⟩

/-- Claim C7 (counterexample): a status payload whose ingredient list
has only two comma-separated entries decodes successfully, where the
claim requires every count other than nine to be rejected as
invalid. -/
theorem C7_two_entries_accepted :
    unpackStatus ("1|0|1|0|2|5,5".toList) = some ⟨1, 0, 1, 0, 2, [5, 5]⟩ ∧
    ([5, 5] : List Int).length ≠ 9 := by
  decide

/-- Claim C7 (amended): `KitchenStatus::unpack` checks only the shape
of the payload — six bar-fields with the first five numeric and every
comma entry of the sixth numeric.  The number of ingredient entries is
never compared against nine: decoding succeeds, returning exactly the
listed counts, for any non-zero number of entries (a zero-entry list is
rejected only because its bar-field is empty and drops out of the
split). -/
theorem C7_entry_count_unchecked (s : KitchenStatusR) (h0 : 0 ≤ s.kitchenId)
    (h1 : 0 ≤ s.activeCooks) (h2 : 0 ≤ s.totalCooks) (h3 : 0 ≤ s.pizzasInQueue)
    (h4 : 0 ≤ s.maxCapacity) (hing : ∀ x ∈ s.ingredients, 0 ≤ x)
    (hne : s.ingredients ≠ []) :
    unpackStatus (packStatus s) = some s :=
  unpackStatus_packStatus s h0 h1 h2 h3 h4 hing hne

/-- Claim C7 witness: the amended statement applied to a two-entry
status, whose decode succeeds. -/
theorem C7_entry_count_unchecked_witness :
    unpackStatus (packStatus ⟨3, 1, 2, 0, 4, [7, 9]⟩) = some ⟨3, 1, 2, 0, 4, [7, 9]⟩ :=
  C7_entry_count_unchecked ⟨3, 1, 2, 0, 4, [7, 9]⟩ (by decide) (by decide) (by decide)
    (by decide) (by decide) (by decide) (by decide)

/-! ## Claim C1 and C2 -/

/-- Claim C1 (code-bug evidence): for the completed Margarita S job
with 300 ms cook time, the notification the worker emits is the frame
`PIZZA:2|1|300|1` — the payload does encode the job with cooked=true,
but the tag is `PIZZA:`, not `COMPLETED:`, so the dispatcher's own
`handleKitchenMessage`, which recognizes only `COMPLETED:`, drops
it. -/
theorem C1_completion_uses_pizza_tag :
    completionFrame ⟨2, 1, 300, false⟩ = "PIZZA:2|1|300|1".toList ∧
    unpackPizza ((completionFrame ⟨2, 1, 300, false⟩).drop 6) = some ⟨2, 1, 300, true⟩ ∧
    (completionFrame ⟨2, 1, 300, false⟩).take 10 ≠ "COMPLETED:".toList ∧
    handleKitchenMessage (completionFrame ⟨2, 1, 300, false⟩) = none := by
  decide

/-- Claim C2 (code-bug evidence): a worker with one cook that receives
three fantasia jobs on successive loop ticks (the stock ample for all
three) spawns a cook thread only for the first — threads are spawned
only at message receipt, and nothing dequeues a waiting job when a cook
finishes.  After the only cook thread completes, exactly one completion
frame has been sent, two jobs are still queued, no cook is active or
sleeping, and the stock would still suffice for another fantasia. -/
theorem C2_only_first_job_cooked :
    (runWorker (initWorkerState 1) c2Trace).sent = [completionFrame fantasiaL] ∧
    (runWorker (initWorkerState 1) c2Trace).queue.length = 2 ∧
    (runWorker (initWorkerState 1) c2Trace).cooking = [] ∧
    (runWorker (initWorkerState 1) c2Trace).activeCooks = 0 ∧
    hasIngredientsList (ingredientsOfOrdinal fantasiaL.type)
      ((runWorker (initWorkerState 1) c2Trace).stock) = true := by
  decide

/-! ## Claim C5 -/

/-- Claim C5 (counterexample): at multiplier 1/512 — a dyadic rational,
so the C++ `double` computation is exact — a Margarita's dispatch cook
time is `static_cast<int>(1.953125) = 1` ms, while the claimed formula
`round(base * multiplier * 1000)` gives 2 ms. -/
theorem C5_truncation_counterexample :
    dispatchCookTimeMs PizzaType.Margarita (1 / 512) = 1 ∧
    specCookTimeRound PizzaType.Margarita (1 / 512) = 2 ∧
    dispatchCookTimeMs PizzaType.Margarita (1 / 512) ≠
      specCookTimeRound PizzaType.Margarita (1 / 512) := by
  have h1 : dispatchCookTimeMs PizzaType.Margarita (1 / 512) = 1 := by
    norm_num [dispatchCookTimeMs, cppTrunc, getCookingTime]
  have h2 : specCookTimeRound PizzaType.Margarita (1 / 512) = 2 := by
    norm_num [specCookTimeRound, specBaseSeconds, round_eq]
  refine ⟨h1, h2, ?_⟩
  rw [h1, h2]
  decide

/-- Claim C5 (amended): for every pizza type and every positive
multiplier, the cook time computed at dispatch equals
`base_seconds(type) * multiplier * 1000` truncated toward zero
(`static_cast<int>`), which for positive values is the floor — not the
rounding the claim states. -/
theorem C5_cook_time_truncates (t : PizzaType) (m : ℚ) (hm : 0 < m) :
    dispatchCookTimeMs t m = ⌊specBaseSeconds t * m * 1000⌋ := by
  have hbase : (getCookingTime t : ℚ) = specBaseSeconds t := by
    cases t <;> rfl
  have hpos : (0 : ℚ) ≤ specBaseSeconds t * m * 1000 := by
    have hb : (0 : ℚ) < specBaseSeconds t := by cases t <;> norm_num [specBaseSeconds]
    positivity
  rw [dispatchCookTimeMs, hbase, cppTrunc, if_pos hpos]

/-- Claim C5 witness: the amended statement applied at multiplier 1/2
and Fantasia. -/
theorem C5_cook_time_truncates_witness :
    0 < (1 / 2 : ℚ) ∧
    dispatchCookTimeMs PizzaType.Fantasia (1 / 2) =
      ⌊specBaseSeconds PizzaType.Fantasia * (1 / 2) * 1000⌋ :=
  ⟨by norm_num, C5_cook_time_truncates PizzaType.Fantasia (1 / 2) (by norm_num)⟩

/-! ## Claim C8 -/

theorem consumeOne_bounds {s : Stock} (h : ∀ j, 0 ≤ s j ∧ s j ≤ 10)
    (i : Ingredient) : ∀ j, 0 ≤ consumeOne s i j ∧ consumeOne s i j ≤ 10 := by
  intro j
  unfold consumeOne
  split_ifs with hj
  · refine ⟨le_max_left _ _, max_le (by norm_num) ?_⟩
    have := (h i).2
    omega
  · exact h j

theorem consumeList_bounds (req : List Ingredient) :
    ∀ {s : Stock}, (∀ j, 0 ≤ s j ∧ s j ≤ 10) →
      ∀ j, 0 ≤ consumeList req s j ∧ consumeList req s j ≤ 10 := by
  induction req with
  | nil => intro s h; exact h
  | cons i rest ih =>
    intro s h
    exact ih (consumeOne_bounds h i)

theorem restock_bounds {s : Stock} (h : ∀ j, 0 ≤ s j ∧ s j ≤ 10) :
    ∀ j, 0 ≤ restockIngredients s j ∧ restockIngredients s j ≤ 10 := by
  intro j
  unfold restockIngredients
  have := (h j).1
  constructor
  · exact le_min (by omega) (by norm_num)
  · exact min_le_right _ _

theorem applyStockOps_bounds (ops : List StockOp) :
    ∀ {s : Stock}, (∀ j, 0 ≤ s j ∧ s j ≤ 10) →
      ∀ j, 0 ≤ applyStockOps ops s j ∧ applyStockOps ops s j ≤ 10 := by
  induction ops with
  | nil => intro s h; exact h
  | cons op rest ih =>
    intro s h
    cases op with
    | restock => exact ih (restock_bounds h)
    | consume t => exact ih (consumeList_bounds _ h)

/-- Claim C8: starting from the initial stock of five per ingredient,
any sequence of restock ticks and per-job consumptions keeps every
ingredient count within [0, 10] at every observation point — restock
adds one capped at 10 by `std::min`, consumption clamps at zero with
`std::max`. -/
theorem C8_stock_bounds (ops : List StockOp) (i : Ingredient) :
    0 ≤ applyStockOps ops initialStock i ∧ applyStockOps ops initialStock i ≤ 10 :=
  applyStockOps_bounds ops (fun _ => by constructor <;> norm_num [initialStock]) i

/-! ## Claim C9 -/

/-- Claim C9: on a ready channel, a successful framed `PIZZA:` send in
`sendPizzaViaIPC` increments the selected worker's in-flight counter,
resets its last-activity instant to now and reports success, while a
failed send reports failure and leaves both untouched. -/
theorem C9_dispatch_send_effects (v : DispatchView) (now : Nat) :
    sendPizzaViaIPC true true now v = (true, ⟨v.pending + 1, now⟩) ∧
    sendPizzaViaIPC true false now v = (false, v) := by
  constructor <;> rfl

/-! ## Claim C10 -/

theorem workerLoopCount_le (recvd shouldCl : Nat → Bool) :
    ∀ (k c : Nat), 10000 - c ≤ k → c ≤ 10000 →
      workerLoopCount recvd shouldCl c ≤ 10000 := by
  intro k
  induction k with
  | zero =>
    intro c hk hc
    rw [workerLoopCount, if_neg (by omega)]
    omega
  | succ k ih =>
    intro c hk hc
    rw [workerLoopCount]
    split_ifs with h1 h2
    · omega
    · exact ih (c + 1) (by omega) (by omega)
    · omega

theorem workerLoopCount_all_recvd (shouldCl : Nat → Bool) :
    ∀ (k c : Nat), 10000 - c ≤ k → c ≤ 10000 →
      workerLoopCount (fun _ => true) shouldCl c = 10000 := by
  intro k
  induction k with
  | zero =>
    intro c hk hc
    rw [workerLoopCount, if_neg (by omega)]
    omega
  | succ k ih =>
    intro c hk hc
    by_cases hlt : c < 10000
    · rw [workerLoopCount, if_pos hlt, if_neg (by simp)]
      exact ih (c + 1) (by omega) (by omega)
    · rw [workerLoopCount, if_neg hlt]
      omega

/-! ## Claim C4 -/

theorem selectMinLoad_load_mem (qual : KitchenRec → Bool) :
    ∀ (ks : List KitchenRec) (j l : Nat),
      selectMinLoad qual ks = some (j, l) →
      ∃ r ∈ ks, qual r = true ∧ getPendingPizzaCount r = l := by
  intro ks
  induction ks with
  | nil => intro j l h; simp [selectMinLoad] at h
  | cons k rest ih =>
    intro j l h
    rw [selectMinLoad] at h
    by_cases hq : qual k = true
    · rw [if_pos hq] at h
      cases htail : selectMinLoad qual rest with
      | none =>
        rw [htail] at h
        simp only [consSelect] at h
        have h2 := Option.some.inj h
        exact ⟨k, List.mem_cons_self k rest, hq, congrArg Prod.snd h2⟩
      | some jl =>
        obtain ⟨j0, l0⟩ := jl
        rw [htail] at h
        simp only [consSelect] at h
        split_ifs at h with hle
        · have h2 := Option.some.inj h
          exact ⟨k, List.mem_cons_self k rest, hq, congrArg Prod.snd h2⟩
        · have h2 := Option.some.inj h
          obtain ⟨r, hr, hqr, hlr⟩ := ih j0 l0 htail
          exact ⟨r, List.mem_cons_of_mem k hr, hqr,
            hlr.trans (congrArg Prod.snd h2)⟩
    · rw [if_neg hq] at h
      cases htail : selectMinLoad qual rest with
      | none => rw [htail] at h; exact absurd h (by simp [skipSelect])
      | some jl =>
        obtain ⟨j0, l0⟩ := jl
        rw [htail] at h
        simp only [skipSelect] at h
        have h2 := Option.some.inj h
        obtain ⟨r, hr, hqr, hlr⟩ := ih j0 l0 htail
        exact ⟨r, List.mem_cons_of_mem k hr, hqr,
          hlr.trans (congrArg Prod.snd h2)⟩

theorem findBestKitchenAux_spec :
    ∀ (ks : List KitchenRec) (i : Nat) (best : Int) (minLoad : Nat),
      0 < minLoad →
      findBestKitchenAux ks i best minLoad =
        bestOfChoice best i minLoad (selectMinLoad queueCapQual ks) := by
  intro ks
  induction ks with
  | nil => intro i best minLoad hmin; rfl
  | cons k rest ih =>
    intro i best minLoad hmin
    rw [findBestKitchenAux, selectMinLoad]
    by_cases hq : k.active = true ∧ canAcceptPizza k = true
    · have hqb : queueCapQual k = true := by
        simp [queueCapQual, hq.1, hq.2]
      rw [if_pos hq, if_pos hqb]
      by_cases h0 : getPendingPizzaCount k = 0
      · rw [if_pos h0, if_pos (show getPendingPizzaCount k < minLoad by omega)]
        cases htail : selectMinLoad queueCapQual rest with
        | none =>
          rw [consSelect, bestOfChoice,
            if_pos (show getPendingPizzaCount k < minLoad by omega)]
          simp
        | some jl =>
          obtain ⟨j, l⟩ := jl
          rw [consSelect, if_pos (show getPendingPizzaCount k ≤ l by omega),
            bestOfChoice, if_pos (show getPendingPizzaCount k < minLoad by omega)]
          simp
      · rw [if_neg h0]
        by_cases hlt : getPendingPizzaCount k < minLoad
        · rw [if_pos hlt, ih (i + 1) (i : Int) (getPendingPizzaCount k) (by omega)]
          cases htail : selectMinLoad queueCapQual rest with
          | none =>
            rw [consSelect, bestOfChoice, bestOfChoice, if_pos hlt]
            simp
          | some jl =>
            obtain ⟨j, l⟩ := jl
            rw [consSelect]
            by_cases hle : getPendingPizzaCount k ≤ l
            · rw [if_pos hle, bestOfChoice, bestOfChoice,
                if_neg (show ¬ l < getPendingPizzaCount k by omega), if_pos hlt]
              simp
            · rw [if_neg hle, bestOfChoice, bestOfChoice,
                if_pos (show l < getPendingPizzaCount k by omega),
                if_pos (show l < minLoad by omega)]
              congr 1
              omega
        · rw [if_neg hlt, ih (i + 1) best minLoad hmin]
          cases htail : selectMinLoad queueCapQual rest with
          | none => rw [consSelect, bestOfChoice, bestOfChoice, if_neg hlt]
          | some jl =>
            obtain ⟨j, l⟩ := jl
            rw [consSelect]
            by_cases hle : getPendingPizzaCount k ≤ l
            · rw [if_pos hle, bestOfChoice, bestOfChoice,
                if_neg (show ¬ l < minLoad by omega), if_neg hlt]
            · rw [if_neg hle, bestOfChoice, bestOfChoice]
              by_cases hlm : l < minLoad
              · rw [if_pos hlm, if_pos hlm]
                congr 1
                omega
              · rw [if_neg hlm, if_neg hlm]
    · have hqb : ¬ queueCapQual k = true := by
        simp only [queueCapQual, Bool.and_eq_true]
        exact hq
      rw [if_neg hq, if_neg hqb, ih (i + 1) best minLoad hmin]
      cases htail : selectMinLoad queueCapQual rest with
      | none => rfl
      | some jl =>
        obtain ⟨j, l⟩ := jl
        rw [skipSelect, bestOfChoice, bestOfChoice]
        by_cases hlm : l < minLoad
        · rw [if_pos hlm, if_pos hlm]
          congr 1
          omega
        · rw [if_neg hlm, if_neg hlm]

/-- Claim C4 (counterexample): a registry holding one active worker
with in-flight count 5, one cook (so max_capacity = 2) and an empty
parent-side queue: the claim's rule skips it (in-flight 5 ≥ 2) and
reports no worker, but `findBestKitchen` selects it — the capacity
skip in the code tests the parent-side simulated queue via
`canAcceptPizza`, not the in-flight count. -/
theorem C4_capacity_skip_counterexample :
    findBestKitchen [⟨true, 0, 1, 5⟩] = 0 ∧
    specSelectInflight [⟨true, 0, 1, 5⟩] = none ∧
    2 * (⟨true, 0, 1, 5⟩ : KitchenRec).numCooks ≤
      getPendingPizzaCount ⟨true, 0, 1, 5⟩ := by
  decide

/-- Claim C4 (amended): `findBestKitchen` iterates the registry in
insertion order, skips inactive workers and workers whose parent-side
simulated queue is at or above `2 × total_cooks` (`canAcceptPizza`, a
queue the parent never fills — not the in-flight count the claim
names); among the remainder it selects the worker with minimum
in-flight load, returning the first worker with load 0 immediately,
ties broken by insertion order, and reports −1 if no worker qualifies.
The load comparison requires loads below `INT_MAX`, the initial
`minLoad`. -/
theorem C4_selection_rule (ks : List KitchenRec)
    (hload : ∀ r ∈ ks, r.pending < intMax) :
    findBestKitchen ks = (specSelectQueueCap ks).elim (-1) (fun j => (j : Int)) := by
  rw [findBestKitchen]
  by_cases hks : ks.isEmpty
  · have h : ks = [] := by simpa using hks
    subst h
    rfl
  · rw [if_neg hks,
      findBestKitchenAux_spec ks 0 (-1) intMax (by norm_num [intMax])]
    cases hsel : selectMinLoad queueCapQual ks with
    | none => simp [specSelectQueueCap, hsel, bestOfChoice]
    | some jl =>
      obtain ⟨j, l⟩ := jl
      obtain ⟨r, hr, hqr, hlr⟩ := selectMinLoad_load_mem queueCapQual ks j l hsel
      have hl : l < intMax := by
        have := hload r hr
        rw [← hlr]
        exact this
      rw [bestOfChoice, if_pos hl]
      simp [specSelectQueueCap, hsel]

/-- Claim C4 witness: the amended rule applied to a three-worker
registry — the second worker (lower in-flight load among the active,
accepting ones) is selected. -/
theorem C4_selection_rule_witness :
    (∀ r ∈ ([⟨true, 0, 2, 3⟩, ⟨true, 0, 2, 1⟩, ⟨false, 0, 2, 0⟩] : List KitchenRec),
        r.pending < intMax) ∧
    findBestKitchen [⟨true, 0, 2, 3⟩, ⟨true, 0, 2, 1⟩, ⟨false, 0, 2, 0⟩] =
      (specSelectQueueCap
        [⟨true, 0, 2, 3⟩, ⟨true, 0, 2, 1⟩, ⟨false, 0, 2, 0⟩]).elim (-1)
        (fun j => (j : Int)) :=
  ⟨by decide, C4_selection_rule _ (by decide)⟩

/-- Claim C10: the receive loop of `runAsChildProcess` executes at most
10000 iterations for every message stream and every behaviour of the
idle predicate, and exactly 10000 when a message arrives on every tick
(so the break at the idle predicate never fires) — after which the
worker falls through to cleanup. -/
theorem C10_loop_bounded :
    (∀ recvd shouldCl : Nat → Bool, workerLoopCount recvd shouldCl 0 ≤ 10000) ∧
    (∀ shouldCl : Nat → Bool, workerLoopCount (fun _ => true) shouldCl 0 = 10000) :=
  ⟨fun recvd shouldCl => workerLoopCount_le recvd shouldCl 10000 0 (by omega) (by omega),
   fun shouldCl => workerLoopCount_all_recvd shouldCl 10000 0 (by omega) (by omega)⟩

end Plazza
